import Mathlib

/-!
# Verification of the Code-Snapshot-Suite storage engine

Shallow embedding of `SnapshotStorage` from `packages/core/src/utils.ts`:
pattern filtering (`matchesPattern`, `shouldIncludeFile`), the recursive
scan (`addFilesToZip`), metadata index operations (`updateMetadata`,
`deleteSnapshot`, `listSnapshots`), snapshot creation (`saveSnapshot`) and
restore (`restoreSnapshot`).  Paths, names and patterns are embedded as
`List Char`; file contents as `List Nat` (raw bytes); the filesystem view
of a directory as a tree; stored container files as a lookup function.
-/

namespace SnapshotSuite

/-- A compiled token of the minimal glob syntax produced by
`pattern.replace(/\*/g, '.*').replace(/\?/g, '.')`:
`*` becomes `.*` (an arbitrary run), `?` becomes `.` (any single
character); a `.` already present in the pattern is likewise an
"any single character" in the resulting regular expression. -/
inductive GlobTok where
  | star : GlobTok
  | anyChar : GlobTok
  | lit : Char → GlobTok
deriving DecidableEq

/-- Compile a pattern string into glob tokens, mirroring the two
`replace` calls in `matchesPattern`.  Faithful for patterns built from
literal characters, `*`, `?` and `.`; other regular-expression
metacharacters do not occur in the patterns this program uses. -/
def compilePattern (pattern : List Char) : List GlobTok :=
  pattern.map (fun c =>
    if c = '*' then GlobTok.star
    else if c = '?' then GlobTok.anyChar
    else if c = '.' then GlobTok.anyChar
    else GlobTok.lit c)

/-- Full (anchored) match of a token list against a character list:
the language of the regular expression obtained from the tokens. -/
def globFull : List GlobTok → List Char → Bool
  | [], [] => true
  | [], _ :: _ => false
  | GlobTok.star :: ps, s =>
      globFull ps s ||
        (match s with
         | [] => false
         | _ :: s2 => globFull (GlobTok.star :: ps) s2)
  | GlobTok.anyChar :: _, [] => false
  | GlobTok.anyChar :: ps, _ :: s2 => globFull ps s2
  | GlobTok.lit _ :: _, [] => false
  | GlobTok.lit c :: ps, d :: s2 => (c = d : Bool) && globFull ps s2
termination_by ps s => (s.length, ps.length)

/-- `matchesPattern(filePath, pattern)`: the compiled regular expression
is tested unanchored (JavaScript `RegExp.prototype.test`), i.e. the
pattern only has to match some contiguous substring of the path.  This
is expressed by bracketing the compiled tokens with `.*` on both sides. -/
def matchesPattern (filePath pattern : List Char) : Bool :=
  globFull (GlobTok.star :: (compilePattern pattern ++ [GlobTok.star])) filePath

/-- The hard-coded default exclude patterns of `shouldIncludeFile`. -/
def defaultExcludes : List (List Char) :=
  ["node_modules".toList, ".git".toList, ".vscode".toList,
   "out".toList, "dist".toList, "*.log".toList]

/-- `SnapshotOptions` (message, includePatterns, excludePatterns);
an absent array is embedded as the empty list. -/
structure SnapshotOptions where
  message : Option (List Char) := none
  includePatterns : List (List Char) := []
  excludePatterns : List (List Char) := []

/-- `shouldIncludeFile(filePath, options)`: excludes (defaults first,
then user excludes) veto; otherwise, when include patterns are present,
at least one must match; otherwise the file is included. -/
def shouldIncludeFile (filePath : List Char) (options : SnapshotOptions) : Bool :=
  let excludePatterns := defaultExcludes ++ options.excludePatterns
  if excludePatterns.any (fun pattern => matchesPattern filePath pattern) then
    false
  else if options.includePatterns.length > 0 then
    options.includePatterns.any (fun pattern => matchesPattern filePath pattern)
  else
    true

/-- A directory tree as seen by `fs.readdir(..., { withFileTypes: true })`:
either a regular file with raw byte content, or a directory with children. -/
inductive FSTree where
  | file : List Char → List Nat → FSTree
  | dir : List Char → List FSTree → FSTree

/-- The single name component of a tree node (`entry.name`). -/
def nameOf : FSTree → List Char
  | FSTree.file n _ => n
  | FSTree.dir n _ => n

/-- The hard-coded name skipped by `addFilesToZip`
(`if (entry.name === '.snapshots') continue`). -/
def snapshotsSkipName : List Char := ".snapshots".toList

/-- `path.join(relativePath, entry.name)` for relative POSIX paths with
an initially empty `relativePath`. -/
def joinRel (rp n : List Char) : List Char :=
  if rp = [] then n else rp ++ '/' :: n

mutual

/-- Entries contributed to the zip by a single directory entry of
`addFilesToZip`: skip anything named `.snapshots`, consult
`shouldIncludeFile` on the joined relative path, recurse into
directories, add `(relativeFilePath, content)` for files. -/
def entriesOfTree (options : SnapshotOptions) : FSTree → List Char →
    List (List Char × List Nat)
  | FSTree.file n c, rp =>
      if n = snapshotsSkipName then []
      else if shouldIncludeFile (joinRel rp n) options then [(joinRel rp n, c)]
      else []
  | FSTree.dir d cs, rp =>
      if d = snapshotsSkipName then []
      else if shouldIncludeFile (joinRel rp d) options then
        entriesOfList options cs (joinRel rp d)
      else []

/-- Entries contributed by a list of sibling directory entries, in
traversal order (the `for (const entry of entries)` loop). -/
def entriesOfList (options : SnapshotOptions) : List FSTree → List Char →
    List (List Char × List Nat)
  | [], _ => []
  | t :: ts, rp => entriesOfTree options t rp ++ entriesOfList options ts rp

end

/-- A well-formed file or directory name as produced by a real
`readdir`: non-empty and free of the path separator. -/
def wfNameB (n : List Char) : Bool :=
  !n.isEmpty && !n.contains '/'

mutual

/-- Well-formedness of a tree node: its own name is well formed, and a
directory has pairwise-distinct child names and well-formed children. -/
def wfTB : FSTree → Bool
  | FSTree.file n _ => wfNameB n
  | FSTree.dir d cs => wfNameB d && decide ((cs.map nameOf).Nodup) && wfAllB cs

/-- Well-formedness of every tree in a list. -/
def wfAllB : List FSTree → Bool
  | [] => true
  | t :: ts => wfTB t && wfAllB ts

end

/-- Well-formedness of a sibling list: distinct names, all well formed. -/
def wfLB (ts : List FSTree) : Bool :=
  decide ((ts.map nameOf).Nodup) && wfAllB ts

/-- The state of a target directory (or any extraction target) as a
partial map from relative path to byte content. -/
def FS : Type := List Char → Option (List Nat)

/-- The empty target directory. -/
def emptyFS : FS := fun _ => none

/-- Writing one file, overwriting any previous content at that path. -/
def writeF (fs : FS) (p : List Char) (c : List Nat) : FS :=
  fun q => if q = p then some c else fs q

/-- `zip.extractAllTo(targetPath, true)` restricted to regular-file
entries: write every archive entry, in order, with overwrite. -/
def restoreInto (fs : FS) (entries : List (List Char × List Nat)) : FS :=
  entries.foldl (fun acc e => writeF acc e.1 e.2) fs

mutual

/-- The raw, unfiltered file map of one tree node: every file it
contains, keyed by relative path (used to describe a target directory's
on-disk content before/after a restore). -/
def rawOfTree : FSTree → List Char → List (List Char × List Nat)
  | FSTree.file n c, rp => [(joinRel rp n, c)]
  | FSTree.dir d cs, rp => rawOfList cs (joinRel rp d)

/-- The raw, unfiltered file map of a sibling list. -/
def rawOfList : List FSTree → List Char → List (List Char × List Nat)
  | [], _ => []
  | t :: ts, rp => rawOfTree t rp ++ rawOfList ts rp

end

/-- A directory tree viewed as a path-to-content map. -/
def fsOfTrees (ts : List FSTree) : FS :=
  restoreInto emptyFS (rawOfList ts [])

/-- Decimal rendering of a natural number, as performed by the
template-literal interpolation `${timestamp}`. -/
def toDecimal (n : Nat) : List Char :=
  if n < 10 then [Nat.digitChar n]
  else toDecimal (n / 10) ++ [Nat.digitChar (n % 10)]
decreasing_by exact Nat.div_lt_self (by omega) (by omega)

/-- `` `snapshot_${timestamp}` `` — the identifier built by
`saveSnapshot`; note that it is derived from the timestamp alone. -/
def snapshotId (timestamp : Nat) : List Char :=
  "snapshot_".toList ++ toDecimal timestamp

/-- `` `backup_${Date.now()}` `` — the identifier used by the backup
step of `restoreSnapshot`. -/
def backupId (now : Nat) : List Char :=
  "backup_".toList ++ toDecimal now

/-- `` `${id}.zip` `` — the container file name for an identifier. -/
def zipName (id : List Char) : List Char :=
  id ++ ".zip".toList

/-- `SnapshotMetadata` from `utils.ts`. -/
structure SnapshotMetadata where
  id : List Char
  timestamp : Nat
  message : Option (List Char)
  fileCount : Nat
  size : Nat
  workspacePath : List Char

/-- The contents of the storage directory: container files by file name
(each container holding its archive entries). -/
def Store : Type := List Char → Option (List (List Char × List Nat))

/-- The empty storage directory. -/
def emptyStore : Store := fun _ => none

/-- Writing a container file into the storage directory. -/
def insertStore (st : Store) (name : List Char)
    (entries : List (List Char × List Nat)) : Store :=
  fun q => if q = name then some entries else st q

/-- Deleting a file that is present; `fs.unlink` on a missing file
fails (ENOENT). -/
def unlinkFile (st : Store) (name : List Char) : Option Store :=
  match st name with
  | none => none
  | some _ => some (fun q => if q = name then none else st q)

/-- The persistent state of one `SnapshotStorage`: the container files
on disk plus the parsed content of `metadata.json`. -/
structure StorageState where
  files : Store
  index : List SnapshotMetadata

/-- The state of a freshly created, empty storage directory. -/
def initialState : StorageState :=
  { files := emptyStore, index := [] }

/-- `listSnapshots()`: a direct read-through of `metadata.json`. -/
def listSnapshots (st : StorageState) : List SnapshotMetadata :=
  st.index

/-- The descending-timestamp ordering used by
`snapshots.sort((a, b) => b.timestamp - a.timestamp)`. -/
def newerEq (a b : SnapshotMetadata) : Prop :=
  b.timestamp ≤ a.timestamp

instance : DecidableRel newerEq :=
  fun a b => Nat.decLe b.timestamp a.timestamp

instance : IsTotal SnapshotMetadata newerEq :=
  ⟨fun a b => (Nat.le_total b.timestamp a.timestamp).elim Or.inl Or.inr⟩

instance : IsTrans SnapshotMetadata newerEq :=
  ⟨fun _ _ _ h1 h2 => Nat.le_trans h2 h1⟩

/-- `updateMetadata(newMetadata)`: read the index, push the new record,
sort by timestamp descending, persist.  `Array.prototype.sort` is
modelled by an insertion sort with the same ordering; only the
sortedness of the result matters to the spec. -/
def updateMetadata (index : List SnapshotMetadata) (m : SnapshotMetadata) :
    List SnapshotMetadata :=
  List.insertionSort newerEq (index ++ [m])

/-- The total size in bytes of the archive entries; stands in for the
byte length of the written container file (no claim depends on the zip
encoding itself). -/
def containerSize (entries : List (List Char × List Nat)) : Nat :=
  (entries.map (fun e => e.2.length)).sum

/-- `saveSnapshot(workspaceRoot, options)` over a workspace whose
on-disk tree is `tree` at time `now`: build the entry set via
`addFilesToZip`, write the container, append the record to the index
(sorted by timestamp descending), and return the record. -/
def saveSnapshotOp (st : StorageState) (tree : List FSTree)
    (options : SnapshotOptions) (now : Nat) (workspaceRoot : List Char) :
    StorageState × SnapshotMetadata :=
  let id := snapshotId now
  let entries := entriesOfList options tree []
  let metadata : SnapshotMetadata :=
    { id := id
      timestamp := now
      message := options.message
      fileCount := entries.length
      size := containerSize entries
      workspacePath := workspaceRoot }
  ({ files := insertStore st.files (zipName id) entries
     index := updateMetadata st.index metadata }, metadata)

/-- `deleteSnapshot(snapshotId)`: try to unlink the container, swallow
the error when the file is absent (`// File might not exist, continue`),
then filter the record out of the index and persist.  The operation
itself always succeeds. -/
def deleteSnapshot (st : StorageState) (id : List Char) :
    Except Unit StorageState :=
  let files1 :=
    match unlinkFile st.files (zipName id) with
    | some fs => fs
    | none => st.files
  Except.ok
    { files := files1
      index := st.index.filter (fun s => decide (s.id ≠ id)) }

/-- The typed failures the storage operations can surface. -/
inductive SnapError where
  | notFound : SnapError
  | conflict : SnapError
deriving DecidableEq

/-- The observable outcome of a `restoreSnapshot` call: the storage
directory's content, the target directory's content, and the error the
call rejected with, if any. -/
structure RestoreOutcome where
  storage : Store
  target : FS
  error : Option SnapError

/-- `restoreSnapshot(snapshotId, targetPath, createBackup)` at time
`now`, over a target directory whose tree is `target`.  When
`createBackup` is set, the backup container is written *first*
(`addFilesToZip(backupZip, targetPath)` with default options); only
then does `new AdmZip(zipPath)` open the requested container, which
fails (modelled as `notFound`) when no such file exists; on success
`extractAllTo(targetPath, true)` overwrites the target's files. -/
def restoreSnapshot (st : Store) (target : List FSTree)
    (snapshotId : List Char) (createBackup : Bool) (now : Nat) :
    RestoreOutcome :=
  let storage1 :=
    if createBackup then
      insertStore st (zipName (backupId now))
        (entriesOfList {} target [])
    else st
  match storage1 (zipName snapshotId) with
  | none =>
      { storage := storage1, target := fsOfTrees target
        error := some SnapError.notFound }
  | some entries =>
      { storage := storage1
        target := restoreInto (fsOfTrees target) entries
        error := none }

/-- Path components of a relative archive path (split at `/`). -/
def splitPath (p : List Char) : List (List Char) :=
  p.splitOn '/'

/-- Whether resolving the components one by one, starting at depth `d`
below the target directory, ever climbs above the target. -/
def resolveStays : List (List Char) → Nat → Bool
  | [], _ => true
  | c :: rest, d =>
      if c = "..".toList then decide (0 < d) && resolveStays rest (d - 1)
      else if c = ".".toList then resolveStays rest d
      else resolveStays rest (d + 1)

/-- An archive entry path escapes the extraction target when resolving
its components would leave the target directory. -/
def entryEscapes (p : List Char) : Bool :=
  !resolveStays (splitPath p) 0

/-- Modelled from the spec: the extraction step of restore is performed
by the external `adm-zip` dependency, whose source is not part of this
repository; §4.3 requires unpack to "reject entries whose relative path
would resolve outside targetDir (path traversal guard)" with a conflict
error.  Entries are vetted first; only if all stay inside are they
written (in order, with overwrite). -/
def unpack (entries : List (List Char × List Nat)) (targetFS : FS) :
    Except SnapError FS :=
  if entries.any (fun e => entryEscapes e.1) then
    Except.error SnapError.conflict
  else
    Except.ok (restoreInto targetFS entries)

/-- One step of the public mutating API, for reasoning about arbitrary
operation sequences. -/
inductive StorageOp where
  | create : List FSTree → SnapshotOptions → Nat → List Char → StorageOp
  | delete : List Char → StorageOp

/-- Apply one operation to the storage state. -/
def applyOp (st : StorageState) : StorageOp → StorageState
  | StorageOp.create tree options now root =>
      (saveSnapshotOp st tree options now root).1
  | StorageOp.delete id =>
      match deleteSnapshot st id with
      | Except.ok st1 => st1
      | Except.error _ => st

/-- Apply a sequence of operations from left to right. -/
def applyOps (st : StorageState) (ops : List StorageOp) : StorageState :=
  ops.foldl applyOp st

/-- `ownedBy rp n p`: path `p` lies at or below the entry named `n` of
the directory whose relative path is `rp`. -/
def ownedBy (rp n p : List Char) : Prop :=
  p = joinRel rp n ∨ ∃ s, p = joinRel rp n ++ '/' :: s

/-- Whether `p` lies strictly inside the directory `d` (as relative
paths): `p` starts with `d` followed by a separator. -/
def isUnder (d p : List Char) : Bool :=
  (d ++ ['/']).isPrefixOf p

/-- The filter-respecting reachability relation of the scan: a file at
relative path `p` with content `c` is reachable in the sibling list
`ts` (whose own relative path is `rp`) through entries that are not
named `.snapshots` and whose relative paths all pass
`shouldIncludeFile`.  This is the set of files the round-trip property
can promise to reproduce. -/
inductive goodFile (options : SnapshotOptions) :
    List FSTree → List Char → List Char → List Nat → Prop where
  | here {ts rp n c} :
      FSTree.file n c ∈ ts →
      n ≠ snapshotsSkipName →
      shouldIncludeFile (joinRel rp n) options = true →
      goodFile options ts rp (joinRel rp n) c
  | inside {ts rp d cs p c} :
      FSTree.dir d cs ∈ ts →
      d ≠ snapshotsSkipName →
      shouldIncludeFile (joinRel rp d) options = true →
      goodFile options cs (joinRel rp d) p c →
      goodFile options ts rp p c

/-! ## Glob matching lemmas (C5) -/

theorem globFull_nil_iff (s : List Char) :
    globFull [] s = true ↔ s = [] := by
  cases s <;> simp [globFull]

theorem globFull_star_iff (ps : List GlobTok) (s : List Char) :
    globFull (GlobTok.star :: ps) s = true ↔
      ∃ u v, s = u ++ v ∧ globFull ps v = true := by
  induction s with
  | nil =>
      constructor
      · intro h
        simp [globFull] at h
        exact ⟨[], [], rfl, h⟩
      · rintro ⟨u, v, huv, hv⟩
        rcases List.append_eq_nil.mp huv.symm with ⟨rfl, rfl⟩
        simp [globFull, hv]
  | cons a s ih =>
      constructor
      · intro h
        simp only [globFull, Bool.or_eq_true] at h
        rcases h with h | h
        · exact ⟨[], a :: s, rfl, h⟩
        · obtain ⟨u, v, rfl, hv⟩ := ih.mp h
          exact ⟨a :: u, v, rfl, hv⟩
      · rintro ⟨u, v, huv, hv⟩
        cases u with
        | nil =>
            simp only [List.nil_append] at huv
            subst huv
            simp [globFull, hv]
        | cons b u =>
            rw [List.cons_append] at huv
            injection huv with hb hrest
            subst hb
            have : globFull (GlobTok.star :: ps) s = true :=
              ih.mpr ⟨u, v, hrest, hv⟩
            simp [globFull, this]

theorem globFull_append_star_iff (ps : List GlobTok) (s : List Char) :
    globFull (ps ++ [GlobTok.star]) s = true ↔
      ∃ u v, s = u ++ v ∧ globFull ps u = true := by
  induction ps generalizing s with
  | nil =>
      simp only [List.nil_append]
      rw [globFull_star_iff]
      constructor
      · intro _
        exact ⟨[], s, rfl, by simp [globFull]⟩
      · rintro ⟨u, v, rfl, hu⟩
        rw [globFull_nil_iff] at hu
        subst hu
        exact ⟨v, [], by simp, by simp [globFull]⟩
  | cons t ps ih =>
      cases t with
      | star =>
          rw [List.cons_append, globFull_star_iff]
          constructor
          · rintro ⟨u, v, rfl, hv⟩
            obtain ⟨a, b, rfl, ha⟩ := (ih _).mp hv
            refine ⟨u ++ a, b, by rw [List.append_assoc], ?_⟩
            exact (globFull_star_iff ps (u ++ a)).mpr ⟨u, a, rfl, ha⟩
          · rintro ⟨u, v, rfl, hu⟩
            obtain ⟨a, b, rfl, hb⟩ := (globFull_star_iff ps _).mp hu
            refine ⟨a, b ++ v, by rw [List.append_assoc], ?_⟩
            exact (ih _).mpr ⟨b, v, rfl, hb⟩
      | anyChar =>
          cases s with
          | nil =>
              constructor
              · intro h
                simp [globFull] at h
              · rintro ⟨u, v, huv, hu⟩
                rcases List.append_eq_nil.mp huv.symm with ⟨rfl, rfl⟩
                simp [globFull] at hu
          | cons c s =>
              rw [List.cons_append]
              have hstep : globFull (GlobTok.anyChar :: (ps ++ [GlobTok.star])) (c :: s) =
                  globFull (ps ++ [GlobTok.star]) s := by
                simp [globFull]
              rw [hstep, ih]
              constructor
              · rintro ⟨u, v, rfl, hu⟩
                exact ⟨c :: u, v, rfl, by simp [globFull, hu]⟩
              · rintro ⟨u, v, huv, hu⟩
                cases u with
                | nil => simp [globFull] at hu
                | cons b u =>
                    rw [List.cons_append] at huv
                    injection huv with hb hrest
                    subst hb
                    refine ⟨u, v, hrest, ?_⟩
                    simpa [globFull] using hu
      | lit ch =>
          cases s with
          | nil =>
              constructor
              · intro h
                simp [globFull] at h
              · rintro ⟨u, v, huv, hu⟩
                rcases List.append_eq_nil.mp huv.symm with ⟨rfl, rfl⟩
                simp [globFull] at hu
          | cons c s =>
              rw [List.cons_append]
              have hstep : globFull (GlobTok.lit ch :: (ps ++ [GlobTok.star])) (c :: s) =
                  ((ch = c : Bool) && globFull (ps ++ [GlobTok.star]) s) := by
                simp [globFull]
              rw [hstep]
              constructor
              · intro h
                simp only [Bool.and_eq_true] at h
                rcases h with ⟨hc, hrest⟩
                obtain ⟨u, v, rfl, hu⟩ := (ih _).mp hrest
                refine ⟨c :: u, v, rfl, ?_⟩
                simp [globFull, hc, hu]
              · rintro ⟨u, v, huv, hu⟩
                cases u with
                | nil => simp [globFull] at hu
                | cons b u =>
                    rw [List.cons_append] at huv
                    injection huv with hb hrest
                    subst hb
                    simp only [globFull, Bool.and_eq_true] at hu
                    rcases hu with ⟨hc, hu⟩
                    simp only [Bool.and_eq_true]
                    exact ⟨hc, (ih _).mpr ⟨u, v, hrest, hu⟩⟩

/-- C5: `matchesPattern` does **not** match the path as a whole: it is
an unanchored test, so a pattern that matches only a proper substring
of the path still succeeds.  Concretely, pattern `b` (no wildcards)
matches path `ab` although `b` does not match the whole of `ab`. -/
theorem C5_counterexample_substring_match :
    matchesPattern "ab".toList "b".toList = true ∧
      globFull (compilePattern "b".toList) "ab".toList = false := by
  constructor
  · simp [matchesPattern, compilePattern, globFull]
  · simp [compilePattern, globFull]

/-- C5 (amended): characterization of `matchesPattern` — `*` matches an
arbitrary run, `?` (and `.`) exactly one character, but the converted
pattern is tested *unanchored*: the match succeeds exactly when some
contiguous substring of the path matches the compiled pattern in full. -/
theorem matchesPattern_iff_substring (p q : List Char) :
    matchesPattern p q = true ↔
      ∃ u v w, p = u ++ v ++ w ∧ globFull (compilePattern q) v = true := by
  unfold matchesPattern
  rw [globFull_star_iff]
  constructor
  · rintro ⟨u, rest, rfl, h⟩
    obtain ⟨v, w, rfl, hv⟩ := (globFull_append_star_iff _ _).mp h
    exact ⟨u, v, w, by rw [List.append_assoc], hv⟩
  · rintro ⟨u, v, w, rfl, hv⟩
    refine ⟨u, v ++ w, by rw [List.append_assoc], ?_⟩
    exact (globFull_append_star_iff _ _).mpr ⟨v, w, rfl, hv⟩

/-! ## Scan lemmas -/

mutual

theorem mem_entriesOfTree_incl {options : SnapshotOptions} :
    ∀ (t : FSTree) (rp p : List Char) (c : List Nat),
      (p, c) ∈ entriesOfTree options t rp → shouldIncludeFile p options = true
  | FSTree.file n c0, rp, p, c, h => by
      rw [entriesOfTree] at h
      split at h
      · simp at h
      · split at h
        · next hincl =>
            simp only [List.mem_singleton, Prod.mk.injEq] at h
            rw [h.1]
            exact hincl
        · simp at h
  | FSTree.dir d cs, rp, p, c, h => by
      rw [entriesOfTree] at h
      split at h
      · simp at h
      · split at h
        · exact mem_entriesOfList_incl cs (joinRel rp d) p c h
        · simp at h

theorem mem_entriesOfList_incl {options : SnapshotOptions} :
    ∀ (ts : List FSTree) (rp p : List Char) (c : List Nat),
      (p, c) ∈ entriesOfList options ts rp → shouldIncludeFile p options = true
  | [], rp, p, c, h => by
      rw [entriesOfList] at h
      simp at h
  | t :: ts, rp, p, c, h => by
      rw [entriesOfList] at h
      rcases List.mem_append.mp h with h1 | h2
      · exact mem_entriesOfTree_incl t rp p c h1
      · exact mem_entriesOfList_incl ts rp p c h2

end

theorem mem_entriesOfList_of_mem_tree {options : SnapshotOptions}
    {t : FSTree} {ts : List FSTree} {rp : List Char}
    {x : List Char × List Nat} (hts : t ∈ ts)
    (hx : x ∈ entriesOfTree options t rp) : x ∈ entriesOfList options ts rp := by
  induction ts with
  | nil => cases hts
  | cons t1 ts ih =>
      rw [entriesOfList]
      rcases List.mem_cons.mp hts with rfl | hmem
      · exact List.mem_append_left _ hx
      · exact List.mem_append_right _ (ih hmem)

/-- Soundness of the reachability relation: every `goodFile` is indeed
captured by the scan. -/
theorem goodFile_mem {options : SnapshotOptions} {ts : List FSTree}
    {rp p : List Char} {c : List Nat} (h : goodFile options ts rp p c) :
    (p, c) ∈ entriesOfList options ts rp := by
  induction h with
  | here hmem hskip hincl =>
      apply mem_entriesOfList_of_mem_tree hmem
      rw [entriesOfTree]
      simp [hskip, hincl]
  | inside hmem hskip hincl _ ih =>
      apply mem_entriesOfList_of_mem_tree hmem
      rw [entriesOfTree]
      simp [hskip, hincl]
      exact ih

/-! ## Extraction lemmas -/

theorem restoreInto_eq_of_not_mem {fs : FS} {es : List (List Char × List Nat)}
    {p : List Char} (h : p ∉ es.map Prod.fst) :
    restoreInto fs es p = fs p := by
  induction es generalizing fs with
  | nil => rfl
  | cons e es ih =>
      simp only [List.map_cons, List.mem_cons, not_or] at h
      show restoreInto (writeF fs e.1 e.2) es p = fs p
      rw [ih h.2]
      simp [writeF, h.1]

theorem restoreInto_mem_eq {es : List (List Char × List Nat)}
    {p : List Char} {c : List Nat} (hmem : (p, c) ∈ es)
    (huniq : ∀ c', (p, c') ∈ es → c' = c) (fs : FS) :
    restoreInto fs es p = some c := by
  induction es generalizing fs with
  | nil => cases hmem
  | cons e es ih =>
      show restoreInto (writeF fs e.1 e.2) es p = some c
      by_cases hp : (p, c) ∈ es
      · exact ih hp (fun c' h' => huniq c' (List.mem_cons_of_mem _ h')) _
      · have he : e = (p, c) := by
          rcases List.mem_cons.mp hmem with h | h
          · exact h.symm
          · exact absurd h hp
        subst he
        have hnot : p ∉ es.map Prod.fst := by
          intro hmap
          rcases List.mem_map.mp hmap with ⟨⟨q, c'⟩, hq, hfst⟩
          simp only at hfst
          subst hfst
          have := huniq c' (List.mem_cons_of_mem _ hq)
          subst this
          exact hp hq
        rw [restoreInto_eq_of_not_mem hnot]
        simp [writeF]

theorem restoreInto_some_imp {es : List (List Char × List Nat)}
    {p : List Char} {c : List Nat} :
    ∀ fs : FS, restoreInto fs es p = some c → (p, c) ∈ es ∨ fs p = some c := by
  induction es with
  | nil => exact fun fs h => Or.inr h
  | cons e es ih =>
      intro fs h
      rcases ih (writeF fs e.1 e.2) h with hmem | hw
      · exact Or.inl (List.mem_cons_of_mem _ hmem)
      · unfold writeF at hw
        split at hw
        · next hpq =>
            subst hpq
            injection hw with hw
            subst hw
            exact Or.inl (List.mem_cons_self _ _)
        · exact Or.inr hw

/-- Restoring into an empty target produces exactly the archive entries. -/
theorem restoreInto_empty_mem {es : List (List Char × List Nat)}
    {p : List Char} {c : List Nat}
    (h : restoreInto emptyFS es p = some c) : (p, c) ∈ es := by
  rcases restoreInto_some_imp emptyFS h with hmem | habs
  · exact hmem
  · exact absurd habs (by simp [emptyFS])

/-! ## Path structure lemmas -/

theorem slash_split {u v x y : List Char} (hu : '/' ∉ u) (hv : '/' ∉ v)
    (h : u ++ '/' :: x = v ++ '/' :: y) : u = v ∧ x = y := by
  induction u generalizing v with
  | nil =>
      cases v with
      | nil =>
          simp only [List.nil_append] at h
          injection h with _ h2
          exact ⟨rfl, h2⟩
      | cons b v =>
          simp only [List.nil_append, List.cons_append] at h
          injection h with h1 _
          exact absurd (h1 ▸ List.mem_cons_self b v) hv
  | cons a u ih =>
      cases v with
      | nil =>
          simp only [List.cons_append, List.nil_append] at h
          injection h with h1 _
          exact absurd (h1 ▸ List.mem_cons_self a u) hu
      | cons b v =>
          simp only [List.cons_append] at h
          injection h with h1 h2
          have hu' : '/' ∉ u := fun hm => hu (List.mem_cons_of_mem _ hm)
          have hv' : '/' ∉ v := fun hm => hv (List.mem_cons_of_mem _ hm)
          obtain ⟨rfl, rfl⟩ := ih hu' hv' h2
          exact ⟨by rw [h1], rfl⟩

theorem joinRel_ne_nil {rp n : List Char} (hn : n ≠ []) : joinRel rp n ≠ [] := by
  unfold joinRel
  split
  · exact hn
  · simp

theorem joinRel_cancel {rp a b : List Char} (h : joinRel rp a = joinRel rp b) :
    a = b := by
  by_cases hrp : rp = []
  · simpa [joinRel, hrp] using h
  · simp only [joinRel, if_neg hrp] at h
    have h2 := List.append_cancel_left h
    injection h2

theorem joinRel_extend (rp n s : List Char) :
    joinRel rp n ++ '/' :: s = joinRel rp (n ++ '/' :: s) := by
  by_cases hrp : rp = [] <;> simp [joinRel, hrp, List.append_assoc]

theorem ownedBy_disjoint {rp n n' p : List Char} (hne : n ≠ n')
    (hn : '/' ∉ n) (hn' : '/' ∉ n')
    (h1 : ownedBy rp n p) (h2 : ownedBy rp n' p) : False := by
  rcases h1 with hp1 | ⟨s1, hp1⟩ <;> rcases h2 with hp2 | ⟨s2, hp2⟩
  · exact hne (joinRel_cancel (hp1 ▸ hp2))
  · rw [joinRel_extend] at hp2
    have := joinRel_cancel (hp1 ▸ hp2)
    subst this
    exact hn (by simp)
  · rw [joinRel_extend] at hp1
    have := joinRel_cancel (hp2 ▸ hp1)
    subst this
    exact hn' (by simp)
  · rw [joinRel_extend] at hp1 hp2
    have heq := joinRel_cancel (hp1 ▸ hp2)
    exact hne (slash_split hn hn' heq).1

theorem wfNameB_not_slash {n : List Char} (h : wfNameB n = true) : '/' ∉ n := by
  unfold wfNameB at h
  simp at h
  exact h.2

theorem wfNameB_ne_nil {n : List Char} (h : wfNameB n = true) : n ≠ [] := by
  unfold wfNameB at h
  simp at h
  exact h.1

theorem joinRel_of_ne_nil {rp : List Char} (n : List Char) (h : rp ≠ []) :
    joinRel rp n = rp ++ '/' :: n := by
  simp [joinRel, h]

theorem wfTB_name {t : FSTree} (h : wfTB t = true) :
    wfNameB (nameOf t) = true := by
  cases t with
  | file n c => rw [wfTB] at h; exact h
  | dir d cs =>
      rw [wfTB] at h
      simp only [Bool.and_eq_true] at h
      exact h.1.1

mutual

theorem shape_tree {options : SnapshotOptions} :
    ∀ (t : FSTree) (rp p : List Char) (c : List Nat),
      wfTB t = true → (p, c) ∈ entriesOfTree options t rp →
      nameOf t ≠ snapshotsSkipName ∧ ownedBy rp (nameOf t) p
  | FSTree.file n c0, rp, p, c, _, h => by
      rw [entriesOfTree] at h
      split at h
      · simp at h
      · next hskip =>
          split at h
          · simp only [List.mem_singleton, Prod.mk.injEq] at h
            exact ⟨hskip, Or.inl (by simpa [nameOf] using h.1)⟩
          · simp at h
  | FSTree.dir d cs, rp, p, c, hwf, h => by
      rw [entriesOfTree] at h
      split at h
      · simp at h
      · next hskip =>
          split at h
          · rw [wfTB] at hwf
            simp only [Bool.and_eq_true] at hwf
            obtain ⟨⟨hname, _⟩, hall⟩ := hwf
            obtain ⟨t', _, _, _, hown⟩ :=
              shape_list cs (joinRel rp d) p c hall h
            refine ⟨hskip, ?_⟩
            have hdnil : joinRel rp d ≠ [] :=
              joinRel_ne_nil (wfNameB_ne_nil hname)
            rcases hown with hp | ⟨s, hp⟩
            · right
              refine ⟨nameOf t', ?_⟩
              rw [hp, joinRel_of_ne_nil _ hdnil]
              simp [nameOf]
            · right
              refine ⟨nameOf t' ++ '/' :: s, ?_⟩
              rw [hp, joinRel_of_ne_nil _ hdnil]
              simp [nameOf, List.append_assoc]
          · simp at h

theorem shape_list {options : SnapshotOptions} :
    ∀ (ts : List FSTree) (rp p : List Char) (c : List Nat),
      wfAllB ts = true → (p, c) ∈ entriesOfList options ts rp →
      ∃ t, t ∈ ts ∧ nameOf t ≠ snapshotsSkipName ∧ '/' ∉ nameOf t ∧
        ownedBy rp (nameOf t) p
  | [], rp, p, c, _, h => by
      rw [entriesOfList] at h
      simp at h
  | t :: ts, rp, p, c, hwf, h => by
      rw [wfAllB] at hwf
      simp only [Bool.and_eq_true] at hwf
      obtain ⟨hwt, hwts⟩ := hwf
      rw [entriesOfList] at h
      rcases List.mem_append.mp h with h1 | h2
      · obtain ⟨hsk, hown⟩ := shape_tree t rp p c hwt h1
        exact ⟨t, List.mem_cons_self _ _, hsk,
          wfNameB_not_slash (wfTB_name hwt), hown⟩
      · obtain ⟨t', hmem, rest⟩ := shape_list ts rp p c hwts h2
        exact ⟨t', List.mem_cons_of_mem _ hmem, rest⟩

end

mutual

theorem nodupPaths_tree {options : SnapshotOptions} :
    ∀ (t : FSTree) (rp : List Char), wfTB t = true →
      ((entriesOfTree options t rp).map Prod.fst).Nodup
  | FSTree.file n c0, rp, _ => by
      rw [entriesOfTree]
      split
      · simp
      · split <;> simp
  | FSTree.dir d cs, rp, hwf => by
      rw [entriesOfTree]
      split
      · simp
      · split
        · rw [wfTB] at hwf
          simp only [Bool.and_eq_true] at hwf
          refine nodupPaths_list cs (joinRel rp d) ?_
          rw [wfLB]
          simp only [Bool.and_eq_true]
          exact ⟨hwf.1.2, hwf.2⟩
        · simp

theorem nodupPaths_list {options : SnapshotOptions} :
    ∀ (ts : List FSTree) (rp : List Char), wfLB ts = true →
      ((entriesOfList options ts rp).map Prod.fst).Nodup
  | [], rp, _ => by
      rw [entriesOfList]
      simp
  | t :: ts, rp, hwf => by
      rw [wfLB] at hwf
      simp only [Bool.and_eq_true, decide_eq_true_eq] at hwf
      obtain ⟨hnd, hall⟩ := hwf
      rw [wfAllB] at hall
      simp only [Bool.and_eq_true] at hall
      obtain ⟨hwt, hwts⟩ := hall
      simp only [List.map_cons, List.nodup_cons] at hnd
      obtain ⟨hnotin, hndtail⟩ := hnd
      rw [entriesOfList, List.map_append, List.nodup_append]
      refine ⟨nodupPaths_tree t rp hwt, ?_, ?_⟩
      · refine nodupPaths_list ts rp ?_
        rw [wfLB]
        simp only [Bool.and_eq_true, decide_eq_true_eq]
        exact ⟨hndtail, hwts⟩
      · intro p hp hq
        obtain ⟨⟨p1, c1⟩, hmem1, rfl⟩ := List.mem_map.mp hp
        obtain ⟨⟨p2, c2⟩, hmem2, hfst2⟩ := List.mem_map.mp hq
        simp only at hfst2
        subst hfst2
        obtain ⟨_, hown1⟩ := shape_tree t rp p2 c1 hwt hmem1
        obtain ⟨t', hmem', _, hsl', hown'⟩ :=
          shape_list ts rp p2 c2 hwts hmem2
        have hsl1 : '/' ∉ nameOf t := wfNameB_not_slash (wfTB_name hwt)
        have hne : nameOf t ≠ nameOf t' := by
          intro he
          exact hnotin (he ▸ List.mem_map_of_mem nameOf hmem')
        exact ownedBy_disjoint hne hsl1 hsl' hown1 hown'

end

theorem nodup_fst_content_eq {l : List (List Char × List Nat)}
    {p : List Char} {c1 c2 : List Nat}
    (hnd : (l.map Prod.fst).Nodup) (h1 : (p, c1) ∈ l) (h2 : (p, c2) ∈ l) :
    c1 = c2 := by
  induction l with
  | nil => cases h1
  | cons e l ih =>
      simp only [List.map_cons, List.nodup_cons] at hnd
      rcases List.mem_cons.mp h1 with he1 | ht1 <;>
        rcases List.mem_cons.mp h2 with he2 | ht2
      · rw [← he1] at he2
        injection he2 with _ h
        exact h.symm
      · exfalso
        apply hnd.1
        rw [← he1]
        show p ∈ l.map Prod.fst
        exact List.mem_map_of_mem Prod.fst ht2
      · exfalso
        apply hnd.1
        rw [← he2]
        show p ∈ l.map Prod.fst
        exact List.mem_map_of_mem Prod.fst ht1
      · exact ih hnd.2 ht1 ht2

/-! ## Round-trip and filter claims -/

/-- C1 fails as stated: with include filter `*.ts`, the relative path
`src/a.ts` is accepted by `shouldIncludeFile`, yet after packing and
unpacking into an empty target the file is absent, because the scan
prunes the directory `src` (whose own relative path matches no include
pattern) before ever reaching the file. -/
theorem C1_counterexample :
    shouldIncludeFile "src/a.ts".toList
        { includePatterns := ["*.ts".toList] } = true ∧
      restoreInto emptyFS
        (entriesOfList { includePatterns := ["*.ts".toList] }
          [FSTree.dir "src".toList [FSTree.file "a.ts".toList [1]]] [])
        "src/a.ts".toList = none := by
  constructor
  · simp [shouldIncludeFile, defaultExcludes, matchesPattern, compilePattern,
      globFull]
  · have h : entriesOfList { includePatterns := ["*.ts".toList] }
        [FSTree.dir "src".toList [FSTree.file "a.ts".toList [1]]] [] = [] := by
      simp [entriesOfList, entriesOfTree, shouldIncludeFile, defaultExcludes,
        matchesPattern, compilePattern, globFull, joinRel, snapshotsSkipName]
    rw [h]
    rfl

/-- C1 (amended): over a well-formed tree, unpacking the packed scan
into an empty target reproduces byte-identical content for every file
that is accepted by the filter *together with all the directories on
its access chain* (and is not named `.snapshots`), and the restored
target contains no file whose relative path the filter rejects. -/
theorem C1_roundtrip_amended (options : SnapshotOptions) (ts : List FSTree)
    (p : List Char) (c : List Nat) (hwf : wfLB ts = true)
    (hgood : goodFile options ts [] p c) :
    restoreInto emptyFS (entriesOfList options ts []) p = some c ∧
      ∀ p' c', restoreInto emptyFS (entriesOfList options ts []) p' = some c' →
        shouldIncludeFile p' options = true := by
  constructor
  · have hmem := goodFile_mem hgood
    have hnd : ((entriesOfList options ts []).map Prod.fst).Nodup :=
      nodupPaths_list ts [] hwf
    exact restoreInto_mem_eq hmem
      (fun c' h' => nodup_fst_content_eq hnd h' hmem) emptyFS
  · intro p' c' h'
    exact mem_entriesOfList_incl _ _ _ _ (restoreInto_empty_mem h')

theorem C1_roundtrip_amended_witness :
    wfLB [FSTree.file "a.txt".toList [10, 20]] = true ∧
      restoreInto emptyFS
        (entriesOfList {} [FSTree.file "a.txt".toList [10, 20]] [])
        (joinRel [] "a.txt".toList) = some [10, 20] := by
  refine ⟨by decide, ?_⟩
  refine (C1_roundtrip_amended {} [FSTree.file "a.txt".toList [10, 20]]
    (joinRel [] "a.txt".toList) [10, 20] (by decide) ?_).1
  exact goodFile.here (List.mem_singleton.mpr rfl) (by decide)
    (by simp [shouldIncludeFile, defaultExcludes, matchesPattern,
      compilePattern, globFull, joinRel])

/-- C4: a relative path that matches at least one default exclude
pattern is rejected by `shouldIncludeFile` whatever the user options,
and no captured entry set ever contains it. -/
theorem C4_default_excludes_veto (p : List Char) (options : SnapshotOptions)
    (h : defaultExcludes.any (fun q => matchesPattern p q) = true) :
    shouldIncludeFile p options = false ∧
      ∀ (ts : List FSTree) (c : List Nat),
        (p, c) ∉ entriesOfList options ts [] := by
  have hexcl : shouldIncludeFile p options = false := by
    unfold shouldIncludeFile
    have hany : (defaultExcludes ++ options.excludePatterns).any
        (fun pattern => matchesPattern p pattern) = true := by
      rw [List.any_append, h]
      simp
    simp [hany]
  refine ⟨hexcl, ?_⟩
  intro ts c hmem
  have hincl := mem_entriesOfList_incl ts [] p c hmem
  rw [hexcl] at hincl
  cases hincl

theorem C4_default_excludes_veto_witness :
    defaultExcludes.any (fun q => matchesPattern ".git".toList q) = true ∧
      shouldIncludeFile ".git".toList
        { includePatterns := [".git".toList] } = false := by
  have h : defaultExcludes.any (fun q => matchesPattern ".git".toList q) = true := by
    simp [defaultExcludes, matchesPattern, compilePattern, globFull]
  exact ⟨h, (C4_default_excludes_veto ".git".toList
    { includePatterns := [".git".toList] } h).1⟩

/-- C10: when user include patterns are supplied and non-empty, a
directory whose relative path matches none of them is pruned whole —
it contributes nothing to the capture, regardless of its contents
(even files that would match an include pattern). -/
theorem C10_directory_pruning (options : SnapshotOptions)
    (d : List Char) (cs rest : List FSTree) (rp : List Char)
    (hinc : options.includePatterns ≠ [])
    (hnomatch : ∀ q ∈ options.includePatterns,
      matchesPattern (joinRel rp d) q = false) :
    entriesOfList options (FSTree.dir d cs :: rest) rp =
      entriesOfList options rest rp := by
  rw [entriesOfList]
  suffices h : entriesOfTree options (FSTree.dir d cs) rp = [] by
    rw [h, List.nil_append]
  have hfalse : shouldIncludeFile (joinRel rp d) options = false := by
    unfold shouldIncludeFile
    by_cases hA : (defaultExcludes ++ options.excludePatterns).any
        (fun pattern => matchesPattern (joinRel rp d) pattern) = true
    · rw [if_pos hA]
    · rw [if_neg hA, if_pos (by simpa [List.length_pos] using hinc)]
      rw [List.any_eq_false]
      intro q hq
      simp [hnomatch q hq]
  rw [entriesOfTree]
  split
  · rfl
  · simp [hfalse]

theorem C10_directory_pruning_witness :
    (({ includePatterns := ["*.ts".toList] } : SnapshotOptions).includePatterns ≠ [] ∧
      ∀ q ∈ ({ includePatterns := ["*.ts".toList] } :
          SnapshotOptions).includePatterns,
        matchesPattern (joinRel [] "src".toList) q = false) ∧
      entriesOfList { includePatterns := ["*.ts".toList] }
          [FSTree.dir "src".toList [FSTree.file "a.ts".toList [1]]] [] =
        entriesOfList { includePatterns := ["*.ts".toList] } [] [] := by
  have h1 : (({ includePatterns := ["*.ts".toList] } :
      SnapshotOptions).includePatterns ≠ []) := by simp
  have h2 : ∀ q ∈ ({ includePatterns := ["*.ts".toList] } :
      SnapshotOptions).includePatterns,
      matchesPattern (joinRel [] "src".toList) q = false := by
    simp [matchesPattern, compilePattern, globFull, joinRel]
  exact ⟨⟨h1, h2⟩, C10_directory_pruning _ "src".toList
    [FSTree.file "a.ts".toList [1]] [] [] h1 h2⟩

theorem joinRel_nil (n : List Char) : joinRel [] n = n := by
  simp [joinRel]

/-! ## Storage directory self-capture (C8) -/

/-- C8 fails as stated: when the storage directory is configured with a
custom name (`snaps`), the scan does *not* skip it — the skip tests the
literal name `.snapshots` — so the container written by `saveSnapshot`
captures a file inside the storage root's own directory. -/
theorem C8_counterexample :
    (saveSnapshotOp initialState
        [FSTree.dir "snaps".toList [FSTree.file "metadata.json".toList [1]]]
        {} 5 "ws".toList).1.files (zipName (snapshotId 5)) =
      some [("snaps/metadata.json".toList, [1])] ∧
    isUnder "snaps".toList "snaps/metadata.json".toList = true := by
  constructor
  · simp [saveSnapshotOp, initialState, insertStore, entriesOfList,
      entriesOfTree, shouldIncludeFile, defaultExcludes, matchesPattern,
      compilePattern, globFull, joinRel, snapshotsSkipName]
  · decide

/-- C8 (amended): with the default storage directory name `.snapshots`
(a single path component), no entry captured from a well-formed tree is
the storage directory or lies under it: the scan skips every directory
entry named `.snapshots`. -/
theorem C8_default_storage_never_captured (options : SnapshotOptions)
    (ts : List FSTree) (p : List Char) (c : List Nat)
    (hwf : wfLB ts = true) (hmem : (p, c) ∈ entriesOfList options ts []) :
    isUnder snapshotsSkipName p = false ∧ p ≠ snapshotsSkipName := by
  have hall : wfAllB ts = true := by
    rw [wfLB] at hwf
    exact (Bool.and_eq_true _ _ ▸ hwf).2
  obtain ⟨t, _, hsk, hsl, hown⟩ := shape_list ts [] p c hall hmem
  simp only [ownedBy, joinRel_nil] at hown
  have hsnap : '/' ∉ snapshotsSkipName := by decide
  constructor
  · by_contra habs
    rw [Bool.not_eq_false] at habs
    have hpre : (snapshotsSkipName ++ ['/']) <+: p :=
      List.isPrefixOf_iff_prefix.mp habs
    obtain ⟨w, hw⟩ := hpre
    rw [List.append_assoc] at hw
    simp only [List.singleton_append] at hw
    rcases hown with hp | ⟨s, hp⟩
    · subst hp
      exact hsl (by rw [← hw]; simp)
    · rw [hp] at hw
      exact hsk (slash_split hsnap hsl hw).1.symm
  · intro habs
    rcases hown with hp | ⟨s, hp⟩
    · exact hsk (by rw [← hp, habs])
    · rw [habs] at hp
      exact hsnap (by rw [hp]; simp)

/-! ## Path traversal guard (C3) -/

/-- C3 (spec-modelled `unpack`): every archive entry whose relative
path would resolve outside the target directory makes `unpack` fail
with a conflict error, and whenever `unpack` succeeds, every entry it
wrote stays inside the target. -/
theorem C3_traversal_guard (entries : List (List Char × List Nat))
    (target : FS) :
    ((∃ e ∈ entries, entryEscapes e.1 = true) →
        unpack entries target = Except.error SnapError.conflict) ∧
      ∀ fs, unpack entries target = Except.ok fs →
        ∀ e ∈ entries, entryEscapes e.1 = false := by
  unfold unpack
  by_cases hA : entries.any (fun e => entryEscapes e.1) = true
  · rw [if_pos hA]
    exact ⟨fun _ => rfl, fun fs h => by cases h⟩
  · rw [if_neg hA]
    constructor
    · rintro ⟨e, he, hesc⟩
      exact absurd (List.any_eq_true.mpr ⟨e, he, hesc⟩) hA
    · intro fs _ e he
      rw [Bool.not_eq_true] at hA
      exact Bool.eq_false_iff.mpr (List.any_eq_false.mp hA e he)

theorem C3_traversal_guard_witness :
    (∃ e ∈ [(("../x".toList : List Char), ([1] : List Nat))],
        entryEscapes e.1 = true) ∧
      unpack [("../x".toList, [1])] emptyFS =
        Except.error SnapError.conflict := by
  have h : ∃ e ∈ [(("../x".toList : List Char), ([1] : List Nat))],
      entryEscapes e.1 = true := by
    refine ⟨("../x".toList, [1]), by simp, ?_⟩
    simp [entryEscapes, splitPath, resolveStays]
  exact ⟨h, (C3_traversal_guard [("../x".toList, [1])] emptyFS).1 h⟩

/-! ## Restore with an unknown identifier (C2) -/

/-- C2 fails as stated: restoring an unknown identifier with
`createBackup = true` does fail and leaves the target untouched, but a
backup container *is* created — the backup is written before
`new AdmZip(zipPath)` ever checks that the requested container exists. -/
theorem C2_counterexample :
    (restoreSnapshot emptyStore [FSTree.file "a".toList [7]]
        "nope".toList true 5).storage (zipName (backupId 5)) =
      some [("a".toList, [7])] ∧
    (restoreSnapshot emptyStore [FSTree.file "a".toList [7]]
        "nope".toList true 5).error = some SnapError.notFound := by
  constructor
  · simp [restoreSnapshot, emptyStore, insertStore, backupId, zipName,
      toDecimal, Nat.digitChar, entriesOfList, entriesOfTree,
      shouldIncludeFile, defaultExcludes, matchesPattern, compilePattern,
      globFull, joinRel, snapshotsSkipName]
  · simp [restoreSnapshot, emptyStore, insertStore, backupId, zipName,
      toDecimal, Nat.digitChar, entriesOfList, entriesOfTree,
      shouldIncludeFile, defaultExcludes, matchesPattern, compilePattern,
      globFull, joinRel, snapshotsSkipName]

/-- C2 (amended): restoring an identifier with no matching container,
with `createBackup = true`, fails with `notFound` and leaves the target
directory's content unchanged — but a backup container of the target's
current state is written to the storage directory before the failure. -/
theorem C2_restore_unknown_amended (st : Store) (target : List FSTree)
    (id : List Char) (now : Nat)
    (h1 : st (zipName id) = none)
    (h2 : zipName id ≠ zipName (backupId now)) :
    (restoreSnapshot st target id true now).error = some SnapError.notFound ∧
      (restoreSnapshot st target id true now).target = fsOfTrees target ∧
      (restoreSnapshot st target id true now).storage
          (zipName (backupId now)) =
        some (entriesOfList {} target []) := by
  have hscrut : insertStore st (zipName (backupId now))
      (entriesOfList {} target []) (zipName id) = none := by
    unfold insertStore
    rw [if_neg h2]
    exact h1
  have hstep : restoreSnapshot st target id true now =
      { storage := insertStore st (zipName (backupId now))
          (entriesOfList {} target [])
        target := fsOfTrees target
        error := some SnapError.notFound } := by
    simp only [restoreSnapshot, eq_self_iff_true, if_true]
    rw [hscrut]
  rw [hstep]
  exact ⟨rfl, rfl, by simp [insertStore]⟩

theorem C2_restore_unknown_amended_witness :
    emptyStore (zipName "nope".toList) = none ∧
      zipName "nope".toList ≠ zipName (backupId 5) ∧
      (restoreSnapshot emptyStore [FSTree.file "a".toList [7]]
          "nope".toList true 5).error = some SnapError.notFound := by
  have h1 : emptyStore (zipName "nope".toList) = none := rfl
  have h2 : zipName "nope".toList ≠ zipName (backupId 5) := by
    have hb : backupId 5 = "backup_5".toList := by
      unfold backupId
      rw [toDecimal, if_pos (by omega : (5 : Nat) < 10)]
      decide
    rw [hb]
    decide
  exact ⟨h1, h2, (C2_restore_unknown_amended emptyStore
    [FSTree.file "a".toList [7]] "nope".toList 5 h1 h2).1⟩

/-! ## Index ordering (C6) -/

theorem sorted_applyOp {st : StorageState}
    (h : (listSnapshots st).Sorted newerEq) (op : StorageOp) :
    (listSnapshots (applyOp st op)).Sorted newerEq := by
  cases op with
  | create tree options now root =>
      show (updateMetadata st.index _).Sorted newerEq
      unfold updateMetadata
      exact List.sorted_insertionSort newerEq _
  | delete id =>
      show (st.index.filter _).Sorted newerEq
      exact List.Pairwise.filter _ h

/-- C6: starting from the empty storage state, after every sequence of
`saveSnapshot` and `deleteSnapshot` operations, `listSnapshots` returns
the records sorted by timestamp descending. -/
theorem C6_index_sorted (ops : List StorageOp) :
    (listSnapshots (applyOps initialState ops)).Sorted newerEq := by
  suffices h : ∀ st, (listSnapshots st).Sorted newerEq →
      (listSnapshots (applyOps st ops)).Sorted newerEq by
    exact h initialState (by simp [listSnapshots, initialState])
  induction ops with
  | nil => exact fun st h => h
  | cons op ops ih => exact fun st h => ih _ (sorted_applyOp h op)

/-! ## Identifier derivation (C7) -/

theorem digitChar_inj_lt :
    ∀ m < 10, ∀ n < 10, Nat.digitChar m = Nat.digitChar n → m = n := by
  decide

theorem toDecimal_ne_nil (n : Nat) : toDecimal n ≠ [] := by
  rw [toDecimal]
  split <;> simp

theorem toDecimal_lt {n : Nat} (h : n < 10) :
    toDecimal n = [Nat.digitChar n] := by
  rw [toDecimal, if_pos h]

theorem toDecimal_ge {n : Nat} (h : ¬n < 10) :
    toDecimal n = toDecimal (n / 10) ++ [Nat.digitChar (n % 10)] := by
  rw [toDecimal, if_neg h]

theorem toDecimal_inj : ∀ m n : Nat, toDecimal m = toDecimal n → m = n := by
  intro m
  induction m using Nat.strong_induction_on with
  | _ m ih =>
      intro n h
      by_cases hm : m < 10 <;> by_cases hn : n < 10
      · rw [toDecimal_lt hm, toDecimal_lt hn] at h
        injection h with h _
        exact digitChar_inj_lt m hm n hn h
      · rw [toDecimal_lt hm, toDecimal_ge hn] at h
        have hlen := congrArg List.length h
        simp only [List.length_append, List.length_cons, List.length_nil] at hlen
        have h0 : (toDecimal (n / 10)).length = 0 := by omega
        exact absurd (List.eq_nil_of_length_eq_zero h0) (toDecimal_ne_nil _)
      · rw [toDecimal_ge hm, toDecimal_lt hn] at h
        have hlen := congrArg List.length h
        simp only [List.length_append, List.length_cons, List.length_nil] at hlen
        have h0 : (toDecimal (m / 10)).length = 0 := by omega
        exact absurd (List.eq_nil_of_length_eq_zero h0) (toDecimal_ne_nil _)
      · rw [toDecimal_ge hm, toDecimal_ge hn] at h
        have hrev := congrArg List.reverse h
        simp only [List.reverse_append, List.reverse_cons, List.reverse_nil,
          List.nil_append, List.singleton_append] at hrev
        injection hrev with hlast hrest
        have hmod : m % 10 = n % 10 :=
          digitChar_inj_lt (m % 10) (Nat.mod_lt _ (by omega)) (n % 10)
            (Nat.mod_lt _ (by omega)) hlast
        have hdiveq : toDecimal (m / 10) = toDecimal (n / 10) :=
          List.reverse_injective hrest
        have hdiv : m / 10 = n / 10 :=
          ih (m / 10) (Nat.div_lt_self (by omega) (by omega)) _ hdiveq
        omega

/-- C7 fails as stated: the identifier is derived from the creation
timestamp alone (`` `snapshot_${timestamp}` ``, no disambiguator), so
two distinct create calls sharing a timestamp yield the same id. -/
theorem C7_counterexample :
    (saveSnapshotOp initialState [FSTree.file "a".toList [1]]
        {} 5 "w1".toList).2.id =
      (saveSnapshotOp initialState [FSTree.file "b".toList [2]]
        {} 5 "w2".toList).2.id := rfl

/-- C7 (amended): the identifier produced by `saveSnapshot` is
`snapshot_` followed by the decimal creation timestamp; two create
calls yield the same identifier exactly when their creation timestamps
coincide (unique across distinct timestamps, colliding within one). -/
theorem C7_id_iff_timestamp (st1 st2 : StorageState)
    (t1 t2 : List FSTree) (o1 o2 : SnapshotOptions) (n1 n2 : Nat)
    (r1 r2 : List Char) :
    (saveSnapshotOp st1 t1 o1 n1 r1).2.id =
        (saveSnapshotOp st2 t2 o2 n2 r2).2.id ↔ n1 = n2 := by
  show snapshotId n1 = snapshotId n2 ↔ n1 = n2
  constructor
  · intro h
    unfold snapshotId at h
    exact toDecimal_inj n1 n2 (List.append_cancel_left h)
  · intro h
    rw [h]

/-! ## Idempotent delete (C9) -/

/-- C9: `deleteSnapshot` succeeds unconditionally — also when the
container file is already absent from disk (the unlink failure is
swallowed) — and calling it twice with the same identifier succeeds
both times, the record being absent from `listSnapshots` after either
call. -/
theorem C9_delete_idempotent (st : StorageState) (id : List Char) :
    ∃ st1 st2, deleteSnapshot st id = Except.ok st1 ∧
      deleteSnapshot st1 id = Except.ok st2 ∧
      (∀ m ∈ listSnapshots st1, m.id ≠ id) ∧
      ∀ m ∈ listSnapshots st2, m.id ≠ id := by
  refine ⟨_, _, rfl, rfl, ?_, ?_⟩
  · intro m hm
    replace hm : m ∈ st.index.filter (fun s => decide (s.id ≠ id)) := hm
    exact of_decide_eq_true (List.mem_filter.mp hm).2
  · intro m hm
    replace hm : m ∈ (st.index.filter (fun s => decide (s.id ≠ id))).filter
        (fun s => decide (s.id ≠ id)) := hm
    exact of_decide_eq_true (List.mem_filter.mp hm).2

theorem C8_default_storage_never_captured_witness :
    wfLB [FSTree.file "a.txt".toList [1]] = true ∧
      ("a.txt".toList, ([1] : List Nat)) ∈
        entriesOfList {} [FSTree.file "a.txt".toList [1]] [] ∧
      isUnder snapshotsSkipName "a.txt".toList = false := by
  have h1 : wfLB [FSTree.file "a.txt".toList [1]] = true := by decide
  have h2 : ("a.txt".toList, ([1] : List Nat)) ∈
      entriesOfList {} [FSTree.file "a.txt".toList [1]] [] := by
    simp [entriesOfList, entriesOfTree, shouldIncludeFile, defaultExcludes,
      matchesPattern, compilePattern, globFull, joinRel, snapshotsSkipName]
  exact ⟨h1, h2,
    (C8_default_storage_never_captured {} _ _ _ h1 h2).1⟩

end SnapshotSuite
